import Mathlib

/-!
Verification of the bitcoin repository core against its specification.

Shallow embedding conventions:
* Python byte strings are `List ℕ` (each entry a byte value `< 256`).
* Python streams (`s.read(n)` returns *up to* `n` bytes, fewer at EOF) are
  `List ℕ` consumed from the front; `read n` is `take n` / `drop n`.
* Fallible Python code (raised exceptions) returns `Option`.
* Field elements of `F_p` are `ZMod p`; the source's `FieldElement`
  invariant `0 ≤ num < prime` with all arithmetic reduced `mod prime`
  is exactly the quotient ring, and `FieldElement.__pow__` (Python's
  three-argument `pow`) is embedded as fuel-bounded square-and-multiply
  so that concrete instances evaluate inside the kernel.
-/

namespace Btc

/-! ### encoding_tools.py -/

/-- `little_endian_to_int(b)`: `int.from_bytes(b, 'little')`. -/
def little_endian_to_int : List ℕ → ℕ
  | [] => 0
  | b :: t => b + 256 * little_endian_to_int t

/-- Little-endian byte rendering of `n` into exactly `l` bytes (the digits of
`n.to_bytes(l, 'little')`, least significant first). -/
def leBytes : ℕ → ℕ → List ℕ
  | 0, _ => []
  | l + 1, n => n % 256 :: leBytes l (n / 256)

/-- `int_to_little_endian(n, length)`: `n.to_bytes(length, 'little')`;
raises `OverflowError` (here `none`) when `n` does not fit. -/
def int_to_little_endian (n l : ℕ) : Option (List ℕ) :=
  if n < 256 ^ l then some (leBytes l n) else none

/-- `read_varint(s)`: reads a varint from the front of the stream, returning
the decoded value and the remaining stream; `none` when the stream is empty
(`s.read(1)[0]` raises `IndexError`).  Marker bytes `0xfd`/`0xfe`/`0xff`
consume 2/4/8 further bytes (fewer are silently accepted at EOF, as
`int.from_bytes` accepts short reads). -/
def read_varint : List ℕ → Option (ℕ × List ℕ)
  | [] => none
  | i :: rest =>
    if i = 0xfd then some (little_endian_to_int (rest.take 2), rest.drop 2)
    else if i = 0xfe then some (little_endian_to_int (rest.take 4), rest.drop 4)
    else if i = 0xff then some (little_endian_to_int (rest.take 8), rest.drop 8)
    else some (i, rest)

/-- `encode_varint(i)`: one raw byte below `2^8` (the source's threshold —
note this is 256, not the 0xfd of the standard varint format), otherwise a
marker byte followed by a 2/4/8-byte little-endian field; values `≥ 2^64`
raise `ValueError` (here `none`). -/
def encode_varint (i : ℕ) : Option (List ℕ) :=
  if i < 2 ^ 8 then some [i]
  else if i < 2 ^ 16 then (int_to_little_endian i 2).map (0xfd :: ·)
  else if i < 2 ^ 32 then (int_to_little_endian i 4).map (0xfe :: ·)
  else if i < 2 ^ 64 then (int_to_little_endian i 8).map (0xff :: ·)
  else none

/-! ### algebra.py : FieldElement and Point -/

/-- Square-and-multiply modular exponentiation on the field: the semantics
of `FieldElement.__pow__` (Python's `pow(num, e, prime)`).  `fuel` bounds
the recursion depth; any `fuel` with `e < 2 ^ fuel` gives `b ^ e`
(`sqPow_eq_pow`). -/
def sqPow {p : ℕ} : ℕ → ZMod p → ℕ → ZMod p
  | 0, _, _ => 1
  | fuel + 1, b, e =>
    if e = 0 then 1
    else
      let r := sqPow fuel (b * b) (e / 2)
      if e % 2 = 1 then r * b else r

/-- `FieldElement.__truediv__`: `a / b = a · b^(p−2)` (Fermat inverse);
fuel `p` suffices since `p − 2 < 2 ^ p`. -/
def fdiv {p : ℕ} (a b : ZMod p) : ZMod p := a * sqPow p b (p - 2)

/-- A curve point: the source's sentinel `Point(None, None, a, b)` is
`inf`, and `Point(x, y, a, b)` with coordinates is `affine x y`.  The curve
parameters `(a, b)` are carried by the operations (the source raises
`TypeError` when they differ between operands; every claim concerns
same-curve operands). -/
inductive Pt (p : ℕ) where
  | inf
  | affine (x y : ZMod p)
  deriving DecidableEq

/-- `Point.__init__` with affine coordinates: raises `ValueError` (`none`)
unless `y² = x³ + a·x + b`. -/
def mkPt (p : ℕ) (a b x y : ZMod p) : Option (Pt p) :=
  if y ^ 2 = x ^ 3 + a * x + b then some (Pt.affine x y) else none

/-- `Point.__add__` for two points with the same curve parameters `(a, b)`,
branch for branch: identity operands return the other operand directly;
the vertical-line and tangent-vertical branches return `Infinity`; the
doubling and chord branches build the result through the checking
constructor `mkPt`.  The doubling branch constructs `FieldElement(3, p)`
and `FieldElement(2, p)`, which requires `3 < p` in the source; the
embedding uses the casts `(3 : ZMod p)`, `(2 : ZMod p)`. -/
def padd (p : ℕ) (a b : ZMod p) : Pt p → Pt p → Option (Pt p)
  | Pt.inf, q => some q
  | q, Pt.inf => some q
  | Pt.affine x1 y1, Pt.affine x2 y2 =>
    if x1 = x2 ∧ y1 ≠ y2 then some Pt.inf
    else if (x1 = x2 ∧ y1 = y2) ∧ y1 = 0 then some Pt.inf
    else if x1 = x2 ∧ y1 = y2 then
      let slope := fdiv (3 * x1 ^ 2 + a) (2 * y1)
      let x3 := slope ^ 2 - 2 * x1
      mkPt p a b x3 (slope * (x1 - x3) - y1)
    else
      let slope := fdiv (y2 - y1) (x2 - x1)
      let x3 := slope ^ 2 - x1 - x2
      mkPt p a b x3 (slope * (x1 - x3) - y1)

/-- The `while coef:` loop of `Point.__rmul__` (double-and-add): when the
low bit is set, fold `current` into `result`; always double `current`;
shift `coef`.  Both additions go through `padd` and propagate its
constructor failure.  `fuel` bounds the iterations; since `coef` halves
each time, `fuel = coef` always reaches the `coef = 0` exit (see the C10
theorem), and exhausted fuel is reported as `none`. -/
def rmulGo (p : ℕ) (a b : ZMod p) : ℕ → Pt p → Pt p → ℕ → Option (Pt p)
  | 0, _, result, coef => if coef = 0 then some result else none
  | fuel + 1, current, result, coef =>
    if coef = 0 then some result
    else do
      let r ← if coef % 2 = 1 then padd p a b result current else some result
      let c ← padd p a b current current
      rmulGo p a b fuel c r (coef / 2)

/-- `Point.__rmul__(coefficient)`: double-and-add starting from
`Infinity`, with no reduction of the scalar. -/
def rmul (p : ℕ) (a b : ZMod p) (P : Pt p) (k : ℕ) : Option (Pt p) :=
  rmulGo p a b k P Pt.inf k

/-! ### encryption.py : secp256k1, ECDSA, DER -/

/-- Python's three-argument `pow(b, e, m)` (modular exponentiation on plain
integers, used for the Fermat inverses in `sign` and `verify`), as a
fuel-bounded square-and-multiply; `pow(b, 0, m) = 1 % m`. -/
def powModGo : ℕ → ℕ → ℕ → ℕ → ℕ
  | 0, _, _, m => 1 % m
  | fuel + 1, b, e, m =>
    if e = 0 then 1 % m
    else
      let r := powModGo fuel (b * b % m) (e / 2) m
      if e % 2 = 1 then r * b % m else r

/-- `pow(b, e, m)`: fuel `e + 1` always reaches the `e = 0` exit since the
exponent halves each step. -/
def powMod (b e m : ℕ) : ℕ := powModGo (e + 1) b e m

/-- Modelled from the spec: `src/constants.py` is imported by
`encryption.py` (`from src.constants import *`) but is absent from the
observed source.  Spec §2 fixes the curve as secp256k1 ("fixed constants —
prime P, curve params A=0, B=7, order N, base point G"); this is the
standard secp256k1 field prime `P = 2^256 − 2^32 − 977`, consistent with
the generator coordinates hard-coded in `encryption.py` (see
`G_is_on_the_curve`). -/
def Pc : ℕ := 2 ^ 256 - 2 ^ 32 - 977

/-- Modelled from the spec: the secp256k1 group order `N` (see `Pc` for why
it is spec-modelled). -/
def Nc : ℕ := 0xfffffffffffffffffffffffffffffffebaaedce6af48a03bbfd25e8cd0364141

/-- x-coordinate of `G`, hard-coded in `encryption.py`. -/
def gx : ℕ := 0x79be667ef9dcbbac55a06295ce870b07029bfcdb2dce28d959f2815b16f81798

/-- y-coordinate of `G`, hard-coded in `encryption.py`. -/
def gy : ℕ := 0x483ada7726a3c4655da4fbfc0e1108a8fd17b448a68554199c47d08ffb10d4b8

/-- The generator `G = S256Point(gx, gy)`. -/
def Gpt : Pt Pc := Pt.affine (gx : ZMod Pc) (gy : ZMod Pc)

/-- `S256Point.__rmul__(coefficient)`: reduce the scalar `mod N`, then the
inherited generic double-and-add (curve parameters `A = 0`, `B = 7`). -/
def s256mul (k : ℕ) (P : Pt Pc) : Option (Pt Pc) := rmul Pc 0 7 P (k % Nc)

/-- `Signature(r, s)`. -/
structure Signature where
  r : ℕ
  s : ℕ
  deriving DecidableEq

/-- `PrivateKey.sign(z)` after the nonce `k` has been drawn (the source
draws it from `randint(0, N)` or from the HMAC-based `deterministic_k`,
which consumes the external hash provider; the claims quantify over the
drawn nonce, so `k` is a parameter here).  `r = (k*G).x.num` — an
`AttributeError` (`none`) if `k*G` is the point at infinity;
`k_inv = pow(k, N-2, N)`; `s = (z + r*secret)*k_inv % N`.

Low-s branch: the source condition is `s > N/2` where `/` is Python float
division.  `N/2 = 2^255 − t` for `t ≈ 2.16·10^38`, and the IEEE-754
doubles adjacent to it are `2^255 − 2^202` and `2^255` (double spacing in
`[2^254, 2^255)` is `2^202`); since `t < 2^201`, `N/2` rounds to exactly
`2^255.0`.  Python compares int with float exactly, so the source
condition is precisely `s > 2^255`. -/
def signWithK (secret z k : ℕ) : Option Signature := do
  let R ← s256mul k Gpt
  match R with
  | Pt.inf => none
  | Pt.affine x _ =>
    let r := x.val
    let kinv := powMod k (Nc - 2) Nc
    let s := (z + r * secret) * kinv % Nc
    some ⟨r, if s > 2 ^ 255 then Nc - s else s⟩

/-- `S256Point.verify(z, sig)`: `s_inv = pow(sig.s, N-2, N)`,
`u = z*s_inv % N`, `v = sig.r*s_inv % N`, `total = u*G + v*self`; returns
`total.x.num == sig.r`.  When `total` is the point at infinity, `total.x`
is the sentinel `None` and `total.x.num` raises `AttributeError`
(`none`). -/
def verifyM (pk : Pt Pc) (z : ℕ) (sig : Signature) : Option Bool := do
  let sinv := powMod sig.s (Nc - 2) Nc
  let u := z * sinv % Nc
  let v := sig.r * sinv % Nc
  let t1 ← s256mul u Gpt
  let t2 ← s256mul v pk
  let total ← padd Pc 0 7 t1 t2
  match total with
  | Pt.inf => none
  | Pt.affine x _ => some (x.val == sig.r)

/-- Big-endian byte rendering of `v` into exactly `l` bytes: the digits of
`v.to_bytes(l, 'big')`, most significant first. -/
def beBytes : ℕ → ℕ → List ℕ
  | 0, _ => []
  | l + 1, v => beBytes l (v / 256) ++ [v % 256]

/-- The integer step of `Signature.der()`: `v.to_bytes(32, 'big')` (an
`OverflowError`, `none`, for `v ≥ 2^256`), strip leading zero bytes with
`lstrip(b'\x00')`, then test `bin[0] & 0x80` — for a byte this is "the
high bit is set", i.e. `128 ≤ b` — and prepend `0x00` when set.  When the
value is `0` the stripped rendering is empty and `bin[0]` raises
`IndexError` (`none`). -/
def derInt (v : ℕ) : Option (List ℕ) :=
  if v < 2 ^ 256 then
    match (beBytes 32 v).dropWhile (· == 0) with
    | [] => none
    | b :: t => some (if 128 ≤ b then 0 :: b :: t else b :: t)
  else none

/-- `Signature.der()`: each integer is wrapped as `0x02, length, bytes`;
the concatenation is wrapped as `0x30, totalLength, payload`. -/
def Signature.der (sig : Signature) : Option (List ℕ) := do
  let rbin ← derInt sig.r
  let result := [2, rbin.length] ++ rbin
  let sbin ← derInt sig.s
  let result := result ++ [2, sbin.length] ++ sbin
  some ([0x30, result.length] ++ result)

/-- The minimal big-endian rendering of an unsigned integer: what the spec
calls the value "rendered big-endian with all leading zero bytes stripped"
(`minBE 0 = []`). -/
def minBE : ℕ → List ℕ
  | 0 => []
  | v + 1 => minBE ((v + 1) / 256) ++ [(v + 1) % 256]
  decreasing_by exact Nat.div_lt_self (Nat.succ_pos v) (by norm_num)

/-- The DER integer rendering exactly as the spec words it: minimal
big-endian bytes, then one `0x00` prepended when the remaining high bit is
set. -/
def specDERInt (v : ℕ) : List ℕ :=
  match minBE v with
  | [] => []
  | b :: t => if 128 ≤ b then 0 :: b :: t else b :: t

/-- The full DER form the spec defines: `r` and `s` wrapped as
`0x02, length, bytes`, concatenated, wrapped as `0x30, totalLength,
payload`. -/
def specDER (r s : ℕ) : List ℕ :=
  let rbin := specDERInt r
  let sbin := specDERInt s
  let payload := [2, rbin.length] ++ rbin ++ [2, sbin.length] ++ sbin
  [0x30, payload.length] ++ payload

/-- `int.from_bytes(b, 'big')` (used inline by `S256Field.parse`). -/
def intFromBytesBE (b : List ℕ) : ℕ := b.foldl (fun acc d => acc * 256 + d) 0

/-- The `S256Field(num)` constructor: `FieldElement.__init__` raises
`ValueError` (`none`) unless `0 ≤ num < P`. -/
def mkS256Field (n : ℕ) : Option (ZMod Pc) :=
  if n < Pc then some (n : ZMod Pc) else none

/-- `S256Field.parse(sec_bin)` (a classmethod producing an `S256Point`):
first byte `0x04` means uncompressed — 32 + 32 big-endian coordinate
bytes, built through the range-checking `S256Field` and curve-checking
`Point` constructors.  Any other first byte is treated as compressed with
`is_even = (byte == 2)`: `x` is the remaining bytes, `y' = sqrt(x³ + B)`
with `sqrt(v) = v^((P+1)/4)`, and the even/odd candidates are `y'` and
`S256Field(P − y'.num)` (both constructed, in either parity branch).
An empty input makes `sec_bin[0]` raise `IndexError` (`none`). -/
def secFieldParse (sec : List ℕ) : Option (Pt Pc) :=
  match sec with
  | [] => none
  | b0 :: rest =>
    if b0 = 4 then do
      let x ← mkS256Field (intFromBytesBE (rest.take 32))
      let y ← mkS256Field (intFromBytesBE ((rest.drop 32).take 32))
      mkPt Pc 0 7 x y
    else do
      let x ← mkS256Field (intFromBytesBE rest)
      let yp := sqPow Pc (x ^ 3 + 7) ((Pc + 1) / 4)
      let evenY ← if yp.val % 2 = 0 then some yp else mkS256Field (Pc - yp.val)
      let oddY ← if yp.val % 2 = 0 then mkS256Field (Pc - yp.val) else some yp
      if b0 = 2 then mkPt Pc 0 7 x evenY else mkPt Pc 0 7 x oddY

/-! ### ops.py : script operations -/

/-- The `while abs_num:` magnitude loop of `encode_num`: append the low
byte, shift right 8; `fuel = m` suffices since the magnitude shrinks. -/
def encMag : ℕ → ℕ → List ℕ
  | 0, _ => []
  | fuel + 1, m => if m = 0 then [] else m % 256 :: encMag fuel (m / 256)

/-- `encode_num(num)`: little-endian sign-magnitude; zero is the empty
byte string; if the most significant produced byte has its high bit set,
append `0x80` (negative) or `0x00` (positive), else for a negative number
set the high bit on that byte (`|= 0x80`, i.e. `+ 128` as it was `< 128`). -/
def encode_num (num : ℤ) : List ℕ :=
  if num = 0 then []
  else
    let result := encMag num.natAbs num.natAbs
    let last := result.getLastD 0
    if 128 ≤ last then
      if num < 0 then result ++ [0x80] else result ++ [0]
    else if num < 0 then result.dropLast ++ [last + 0x80]
    else result

/-- `op_0(stack)`: push `encode_num(0)` (the empty byte string); always
succeeds. -/
def op_0 (stack : List (List ℕ)) : List (List ℕ) := stack ++ [encode_num 0]

/-- `op_dup(stack)`: `False` on an empty stack, else duplicate the top
element (`stack[-1]`, appended at the end — Python lists grow at the
top). -/
def op_dup (stack : List (List ℕ)) : Bool × List (List ℕ) :=
  if stack.length < 1 then (false, stack)
  else (true, stack ++ [stack.getLastD []])

/-- `op_hash256(stack)`: `False` on an empty stack, else pop the top
(`stack.pop()`) and push its double-SHA-256; the hash itself is the
external provider `h` (spec §6). -/
def op_hash256 (h : List ℕ → List ℕ) (stack : List (List ℕ)) :
    Bool × List (List ℕ) :=
  if stack.length < 1 then (false, stack)
  else (true, stack.dropLast ++ [h (stack.getLastD [])])

/-- `op_hash160(stack)`: as `op_hash256` with the external
SHA-256+RIPEMD-160 provider. -/
def op_hash160 (h : List ℕ → List ℕ) (stack : List (List ℕ)) :
    Bool × List (List ℕ) :=
  if stack.length < 1 then (false, stack)
  else (true, stack.dropLast ++ [h (stack.getLastD [])])

/-- `op_checksig(stack, z)`: `False` if the stack has fewer than two
elements; otherwise pop the signature then the public key — both with
`stack.pop(0)`, i.e. from the *bottom* of the stack — strip the trailing
sighash byte from the signature, parse the key with `S256Field.parse`
(embedded as `secFieldParse`) and the signature with `Signature.parse`,
which does not exist in the observed source (spec §9 flags this), so it is
the parameter `sigP`; verify; push `encode_num 1` and succeed, or push
`encode_num 0` (via `op_0`) and fail.  Parse or verification exceptions
propagate (`none`). -/
def op_checksig (sigP : List ℕ → Option Signature)
    (stack : List (List ℕ)) (z : ℕ) : Option (Bool × List (List ℕ)) :=
  match stack with
  | sigbytes :: pubkey :: rest => do
    let sec ← secFieldParse pubkey
    let sig ← sigP sigbytes.dropLast
    let ok ← verifyM sec z sig
    if ok then some (true, rest ++ [encode_num 1])
    else some (false, op_0 rest)
  | _ => some (false, stack)

/-! ### script.py -/

/-- A script command, a tagged union `Op(u8) | Data(bytes)` (the source
tags dynamically: `int` commands are opcodes, byte strings are push
data). -/
inductive Cmd where
  | op (n : ℕ)
  | data (bs : List ℕ)
  deriving DecidableEq

/-- The `while count < length` loop of `Script.parse`.  `fuel` bounds the
number of iterations; `count` grows by at least one per iteration, so
`fuel = length` always suffices.  On loop exit the source raises
`SyntaxError` (here `none`) unless exactly `length` bytes were consumed.
An empty stream makes `s.read(1)[0]` raise `IndexError` (`none`). -/
def parseGo (length : ℕ) : ℕ → List ℕ → ℕ → List Cmd → Option (List Cmd)
  | 0, _, count, acc =>
    if count < length then none
    else if count = length then some acc.reverse else none
  | fuel + 1, s, count, acc =>
    if count < length then
      match s with
      | [] => none
      | b :: rest =>
        if 1 ≤ b ∧ b ≤ 75 then
          parseGo length fuel (rest.drop b) (count + 1 + b) (Cmd.data (rest.take b) :: acc)
        else if b = 76 then
          let dl := little_endian_to_int (rest.take 1)
          parseGo length fuel ((rest.drop 1).drop dl) (count + 1 + (dl + 1))
            (Cmd.data ((rest.drop 1).take dl) :: acc)
        else if b = 77 then
          let dl := little_endian_to_int (rest.take 2)
          parseGo length fuel ((rest.drop 2).drop dl) (count + 1 + (dl + 2))
            (Cmd.data ((rest.drop 2).take dl) :: acc)
        else if b = 78 then
          let dl := little_endian_to_int (rest.take 4)
          parseGo length fuel ((rest.drop 4).drop dl) (count + 1 + (dl + 4))
            (Cmd.data ((rest.drop 4).take dl) :: acc)
        else
          parseGo length fuel rest (count + 1) (Cmd.op b :: acc)
    else if count = length then some acc.reverse else none

/-- `Script.parse(s)`: read a varint `length`, then the command loop. -/
def Script.parse (s : List ℕ) : Option (List Cmd) :=
  match read_varint s with
  | none => none
  | some (length, rest) => parseGo length length rest 0 []

/-- `Script.raw_serialize`: opcodes emit one raw byte; a data command
emits only a length prefix chosen by the source's (inconsistent)
thresholds — faithfully to the source, the data bytes themselves are never
appended, the gaps at `length ∈ {75, 256, 512}` and everything `≥ 2048`
raise `ValueError` (`none`), and both PUSHDATA branches write marker id 77
(as a 2- or 4-byte little-endian field). -/
def Script.raw_serialize : List Cmd → Option (List ℕ)
  | [] => some []
  | Cmd.op n :: t => do
    let b ← int_to_little_endian n 1
    let r ← Script.raw_serialize t
    pure (b ++ r)
  | Cmd.data bs :: t =>
    let l := bs.length
    let pfx : Option (List ℕ) :=
      if l < 75 then some [l]
      else if 75 < l ∧ l < 2 ^ 8 then some [76, l]
      else if 2 ^ 8 < l ∧ l < 2 ^ 9 then some ([77, 0] ++ leBytes 2 l)
      else if 2 ^ 9 < l ∧ l < 2 ^ 11 then some ([77, 0, 0, 0] ++ leBytes 4 l)
      else none
    do
      let p ← pfx
      let r ← Script.raw_serialize t
      pure (p ++ r)

/-- `Script.serialize`: varint length prefix plus the raw serialization. -/
def Script.serialize (cmds : List Cmd) : Option (List ℕ) := do
  let raw ← Script.raw_serialize cmds
  let ev ← encode_varint raw.length
  pure (ev ++ raw)

/-- The command loop of `Script.evaluate(z)`.  Data commands are pushed.
For an `Op`, the source first looks the opcode up in the dispatch table
`OP_CODE_FUNCTIONS = {118, 169, 170, 172}`; any other opcode — including
the flow-control (99, 100), altstack (107, 108) and remaining
signature-check (173, 174, 175) families special-cased afterwards — raises
`KeyError` (`none`).  Consequently the auxiliary stack created by the
source can never be touched and is omitted.  An op returning `False`
aborts with overall `False`.  After the loop: `False` on an empty stack;
otherwise the source tests `stack.pop(0)` — index 0, the *bottom* of the
stack — against `b''` (its own comment says "the last element"). -/
def evalGo (h2 h1 : List ℕ → List ℕ) (sigP : List ℕ → Option Signature)
    (z : ℕ) : List Cmd → List (List ℕ) → Option Bool
  | [], stack =>
    match stack with
    | [] => some false
    | bottom :: _ => some (bottom != [])
  | Cmd.data bs :: rest, stack => evalGo h2 h1 sigP z rest (stack ++ [bs])
  | Cmd.op n :: rest, stack =>
    if n = 118 then
      match op_dup stack with
      | (true, st) => evalGo h2 h1 sigP z rest st
      | (false, _) => some false
    else if n = 169 then
      match op_hash160 h1 stack with
      | (true, st) => evalGo h2 h1 sigP z rest st
      | (false, _) => some false
    else if n = 170 then
      match op_hash256 h2 stack with
      | (true, st) => evalGo h2 h1 sigP z rest st
      | (false, _) => some false
    else if n = 172 then
      match op_checksig sigP stack z with
      | none => none
      | some (true, st) => evalGo h2 h1 sigP z rest st
      | some (false, _) => some false
    else none

/-- `Script.evaluate(z)`: run the command loop on an initially empty
stack.  `h2`/`h1` are the external double-SHA-256 and SHA-256+RIPEMD-160
providers and `sigP` the missing `Signature.parse` (see `evalGo`). -/
def Script.evaluate (h2 h1 : List ℕ → List ℕ) (sigP : List ℕ → Option Signature)
    (cmds : List Cmd) (z : ℕ) : Option Bool :=
  evalGo h2 h1 sigP z cmds []

/-! ## Theorems -/

/-! ### Helper lemmas -/

theorem sqPow_eq_pow {p : ℕ} :
    ∀ (fuel : ℕ) (b : ZMod p) (e : ℕ), e < 2 ^ fuel → sqPow fuel b e = b ^ e := by
  intro fuel
  induction fuel with
  | zero =>
    intro b e he
    interval_cases e
    simp [sqPow]
  | succ n ih =>
    intro b e he
    by_cases h0 : e = 0
    · simp [sqPow, h0]
    · have hdiv : e / 2 < 2 ^ n := by
        rw [Nat.div_lt_iff_lt_mul (by norm_num)]
        calc e < 2 ^ (n + 1) := he
        _ = 2 ^ n * 2 := by ring
      have hrec : sqPow n (b * b) (e / 2) = (b * b) ^ (e / 2) := ih (b * b) (e / 2) hdiv
      have hsplit : b ^ e = (b * b) ^ (e / 2) * b ^ (e % 2) := by
        conv_lhs => rw [← Nat.div_add_mod e 2]
        rw [pow_add, pow_mul, pow_two]
      rcases Nat.mod_two_eq_zero_or_one e with hm | hm
      · simp only [sqPow, h0, if_false, hrec, hm]
        simp [hsplit, hm]
      · simp only [sqPow, h0, if_false, hrec, hm]
        simp [hsplit, hm]

theorem fdiv_eq {p : ℕ} (a b : ZMod p) : fdiv a b = a * b ^ (p - 2) := by
  rw [fdiv, sqPow_eq_pow p b (p - 2) (lt_of_le_of_lt (Nat.sub_le p 2) (Nat.lt_two_pow p))]

/-! ### Sanity vectors -/

/-- Vector from the repository's test suite: on `y² = x³ + 7` over
`F_223`, `(192,105) + (17,56) = (170,142)`. -/
theorem padd_test_vector_223 :
    padd 223 0 7 (Pt.affine 192 105) (Pt.affine 17 56) = some (Pt.affine 170 142) := by
  decide

set_option maxRecDepth 4000 in
/-- The hard-coded generator coordinates satisfy the secp256k1 curve
equation over the spec-modelled prime `Pc` — the checking constructor
accepts `G`. -/
theorem G_is_on_the_curve : mkPt Pc 0 7 (gx : ZMod Pc) (gy : ZMod Pc) = some Gpt := by
  decide

/-- The loop body is skipped entirely when the scalar is zero, whatever
the fuel. -/
theorem rmulGo_coef_zero (p : ℕ) (a b : ZMod p) :
    ∀ (fuel : ℕ) (cur res : Pt p), rmulGo p a b fuel cur res 0 = some res := by
  intro fuel cur res
  cases fuel <;> simp [rmulGo]

/-- Fuel monotonicity of the double-and-add loop: once `fuel ≥ coef` the
loop reaches its `coef = 0` exit and extra fuel cannot change the result
— the source's `while coef:` loop terminates. -/
theorem rmulGo_fuel_stable (p : ℕ) (a b : ZMod p) :
    ∀ (fuel coef : ℕ), coef ≤ fuel → ∀ (extra : ℕ) (cur res : Pt p),
      rmulGo p a b (fuel + extra) cur res coef = rmulGo p a b fuel cur res coef := by
  intro fuel
  induction fuel with
  | zero =>
    intro coef hc extra cur res
    interval_cases coef
    rw [rmulGo_coef_zero, rmulGo_coef_zero]
  | succ n ih =>
    intro coef hc extra cur res
    by_cases h0 : coef = 0
    · subst h0
      rw [rmulGo_coef_zero, rmulGo_coef_zero]
    · have harith : n + 1 + extra = (n + extra) + 1 := by omega
      rw [harith]
      simp only [rmulGo, h0, if_false]
      split
      · rcases hpr : padd p a b res cur with _ | r
        · simp
        · rcases hpc : padd p a b cur cur with _ | c
          · simp
          · simp only [Option.bind_eq_bind', Option.some_bind]
            exact ih (coef / 2) (by omega) extra c r
      · rcases hpc : padd p a b cur cur with _ | c
        · simp
        · simp only [Option.bind_eq_bind', Option.some_bind]
          exact ih (coef / 2) (by omega) extra c res

set_option maxRecDepth 1000 in
/-- C10: generic `Point.__rmul__` sends edge scalars and the identity to
the identity and its loop terminates: `0 * P = Infinity` for every `P`;
`k * Infinity = Infinity` for every `k ≥ 0`; and the result of the loop is
already settled at fuel `k` — granting the loop any extra fuel cannot
change it, i.e. the `while coef:` loop exits for every non-negative
scalar. -/
theorem rmul_zero_and_infinity (p : ℕ) (a b : ZMod p) :
    (∀ P : Pt p, rmul p a b P 0 = some Pt.inf) ∧
    (∀ k : ℕ, rmul p a b Pt.inf k = some Pt.inf) ∧
    (∀ (k extra : ℕ) (P : Pt p),
      rmulGo p a b (k + extra) P Pt.inf k = rmulGo p a b k P Pt.inf k) := by
  refine ⟨fun P => rfl, fun k => ?_, fun k extra P => rmulGo_fuel_stable p a b k k le_rfl extra P Pt.inf⟩
  have key : ∀ fuel coef : ℕ, coef ≤ fuel →
      rmulGo p a b fuel Pt.inf Pt.inf coef = some Pt.inf := by
    intro fuel
    induction fuel with
    | zero =>
      intro coef hc
      interval_cases coef
      exact rmulGo_coef_zero p a b 0 Pt.inf Pt.inf
    | succ n ih =>
      intro coef hc
      by_cases h0 : coef = 0
      · subst h0; exact rmulGo_coef_zero p a b (n + 1) Pt.inf Pt.inf
      · have hpadd : padd p a b Pt.inf Pt.inf = some Pt.inf := rfl
        simp only [rmulGo, h0, if_false, hpadd, Option.bind_eq_bind',
          Option.some_bind, ite_self]
        exact ih (coef / 2) (by omega)
  exact key k k le_rfl

set_option maxRecDepth 200000 in
/-- C8: `S256Point.__rmul__` refines the generic double-and-add under
reduction mod the group order: `k * P` on the secp256k1 curve is by
construction the generic `rmul` applied to `k % N` (first conjunct), while
the generic `CurvePoint` multiplication itself performs no such reduction:
on the curve `y² = x³ + 7` over `F_223`, multiplying the test point
`(192, 105)` by `N` gives `(60, 84)`, not the `Infinity` that
`N % N = 0` gives (second conjunct). -/
theorem s256mul_refines_generic_rmul :
    (∀ (k : ℕ) (P : Pt Pc), s256mul k P = rmul Pc 0 7 P (k % Nc)) ∧
    rmul 223 0 7 (Pt.affine 192 105) Nc ≠
      rmul 223 0 7 (Pt.affine 192 105) (Nc % Nc) := by
  refine ⟨fun k P => rfl, by decide⟩

/-- C2: the claim (and the source's own inline comment) say that after all
commands are consumed, evaluation succeeds iff the stack is non-empty and
its top (most recently pushed) element is non-empty.  The source instead
tests `stack.pop(0)` — the *bottom* element.  Pushing the empty byte
string and then `0x01` leaves the top `= [0x01]` (the claim demands
`True`), yet evaluation returns `False`, for every hash provider and
signature parser and every sighash. -/
theorem evaluate_checks_bottom_not_top (h2 h1 : List ℕ → List ℕ)
    (sigP : List ℕ → Option Signature) (z : ℕ) :
    Script.evaluate h2 h1 sigP [Cmd.data [], Cmd.data [1]] z = some false := rfl

set_option maxRecDepth 50000 in
/-- C4: the claim says every returned `s` satisfies `s ≤ N/2`.  The source
guard is `s > N/2` with Python float division: `N/2` rounds to exactly
`2^255.0`, so any computed `s` in `(N/2, 2^255]` escapes normalization.
With `secret = 1`, nonce `k = 1` and `z = 2^255 − G.x`, the computed
`s = (z + r·1)·1 mod N` is exactly `2^255`, is returned unnormalized, and
`2·2^255 > N`, i.e. `s > N/2`. -/
theorem sign_low_s_misses_float_window :
    signWithK 1 (2 ^ 255 - gx) 1 = some ⟨gx, 2 ^ 255⟩ ∧ 2 * 2 ^ 255 > Nc := by
  exact ⟨by decide, by decide⟩

set_option maxRecDepth 50000 in
/-- C3: the claim says sign-then-verify succeeds for every secret in
`[1, N−1]`, every sighash `z` and every nonce `k` in `[1, N−1]`.  Take
`secret = 1` (so the public key is `1·G = G`), `k = 1` and
`z = N − G.x`: the computed `s = (z + G.x) mod N` is `0`, the source
returns `Signature(G.x, 0)` (it never re-draws on `s = 0` as ECDSA
requires), and `verify` then computes `s⁻¹ = pow(0, N−2, N) = 0`, hence
`u = v = 0`, `total = 0·G + 0·G = Infinity`, and `total.x.num` raises
`AttributeError` instead of returning `True`. -/
theorem sign_zero_s_then_verify_crashes :
    s256mul 1 Gpt = some Gpt ∧
    signWithK 1 (Nc - gx) 1 = some ⟨gx, 0⟩ ∧
    verifyM Gpt (Nc - gx) ⟨gx, 0⟩ = none := by
  refine ⟨by decide, by decide, by decide⟩

set_option maxRecDepth 50000 in
/-- C5: the claim says `verify` is total — a boolean with no error branch,
"including when `u·G + v·publicKey` is the point at infinity".  With the
on-curve public key `G`, `z = 0`, and the 256-bit signature pair
`(r, s) = (N, 1)`: `s_inv = 1`, `u = 0`, `v = N mod N = 0`, so
`total = 0·G + 0·G = Infinity` and `total.x.num` raises `AttributeError`
(`None` has no `num`) instead of returning a boolean. -/
theorem verify_crashes_at_infinity :
    verifyM Gpt 0 ⟨Nc, 1⟩ = none := by decide

/-- C1: the varint codec is claimed to emit one raw byte exactly when
`x < 0xfd` (and `0xfd` plus two little-endian bytes for
`0xfd ≤ x < 2^16`) and to round-trip for every `x < 2^64`.  The source
encoder's one-byte threshold is `2^8`, so `encode_varint 0xfd` is the
single raw byte `0xfd`, which the decoder in the same file treats as the
2-byte marker and decodes (at end of stream) to `0`, not `253`: the round
trip fails.  For contrast, `0xfc` behaves as claimed. -/
theorem c1_varint_threshold_breaks_roundtrip :
    encode_varint 0xfd = some [0xfd] ∧
    read_varint [0xfd] = some (0, []) ∧
    encode_varint 0xfc = some [0xfc] ∧ read_varint [0xfc] = some (0xfc, []) := by
  decide

/-- C6: serialization is claimed to invert parsing for every well-formed
script.  On the one-command script pushing the single data byte `0x05`,
the source serializer emits only the length prefix `0x01` and never the
data byte, so the serialized form is `[0x01, 0x01]`, which `Script.parse`
rejects (`SyntaxError`: it consumes 2 bytes against a declared length
of 1) instead of returning the original script. -/
theorem serialize_then_parse_fails :
    Script.serialize [Cmd.data [5]] = some [1, 1] ∧
    Script.parse [1, 1] = none := by decide

/-- C7: on any curve `(a, b)` over a prime field `F_p` (with `3 < p`, as
required by the `FieldElement(3, p)`/`FieldElement(2, p)` constructed in
the doubling branch), `Point.__add__` has `Infinity` as a two-sided
identity, and is commutative on all affine operands in every branch: the
vertical-line and tangent-vertical branches are symmetric, the doubling
branch is literally symmetric, and in the chord branch the two slopes
agree (`(-u)·(-w)^(p-2) = u·w^(p-2)` since `p - 2` is odd) and the `y₃`
expressions agree by Fermat's little theorem applied to `x₂ - x₁ ≠ 0`. -/
theorem point_add_identity_comm (p : ℕ) [Fact p.Prime] (h3 : 3 < p) (a b : ZMod p) :
    (∀ P : Pt p, padd p a b P Pt.inf = some P ∧ padd p a b Pt.inf P = some P) ∧
    (∀ P Q : Pt p, padd p a b P Q = padd p a b Q P) := by
  constructor
  · intro P
    cases P <;> exact ⟨rfl, rfl⟩
  · intro P Q
    cases P with
    | inf => cases Q <;> rfl
    | affine x1 y1 =>
      cases Q with
      | inf => rfl
      | affine x2 y2 =>
        by_cases hx : x1 = x2
        · by_cases hy : y1 = y2
          · subst hx; subst hy; rfl
          · have hy' : ¬ y2 = y1 := fun h => hy h.symm
            simp [padd, hx, hy, hy']
        · have hx' : ¬ x2 = x1 := fun h => hx h.symm
          simp only [padd, hx, hx', false_and, and_false, if_false, ne_eq]
          have hodd : Odd (p - 2) := by
            have hp : p.Prime := Fact.out
            have hop : Odd p := hp.odd_of_ne_two (by omega)
            obtain ⟨k, hk⟩ := hop
            exact ⟨k - 1, by omega⟩
          have hslope : fdiv (y1 - y2) (x1 - x2) = fdiv (y2 - y1) (x2 - x1) := by
            rw [fdiv_eq, fdiv_eq]
            have e1 : y1 - y2 = -(y2 - y1) := by ring
            have e2 : x1 - x2 = -(x2 - x1) := by ring
            rw [e1, e2, Odd.neg_pow hodd]
            ring
          rw [hslope]
          set s := fdiv (y2 - y1) (x2 - x1) with hs
          have hsub : (x2 - x1 : ZMod p) ≠ 0 := sub_ne_zero.mpr hx'
          have hfermat : (x2 - x1 : ZMod p) ^ (p - 1) = 1 :=
            ZMod.pow_card_sub_one_eq_one hsub
          have hkey : s * (x2 - x1) = y2 - y1 := by
            rw [hs, fdiv_eq, mul_assoc, ← pow_succ]
            have hpe : p - 2 + 1 = p - 1 := by
              have := (Fact.out : p.Prime).two_le
              omega
            rw [hpe, hfermat, mul_one]
          have ex : (s ^ 2 - x2 - x1 : ZMod p) = s ^ 2 - x1 - x2 := by ring
          rw [ex]
          have ey : s * (x2 - (s ^ 2 - x1 - x2)) - y2
              = s * (x1 - (s ^ 2 - x1 - x2)) - y1 := by
            linear_combination hkey
          rw [ey]

/-- Witness for C7 at the concrete curve of the repository's tests:
`p = 223`, `(a, b) = (0, 7)`, commuting the two on-curve test points. -/
theorem point_add_comm_witness :
    padd 223 0 7 (Pt.affine 192 105) (Pt.affine 17 56) =
      padd 223 0 7 (Pt.affine 17 56) (Pt.affine 192 105) := by
  haveI : Fact (Nat.Prime 223) := ⟨by norm_num⟩
  exact (point_add_identity_comm 223 (by norm_num) 0 7).2
    (Pt.affine 192 105) (Pt.affine 17 56)

/-! ### C9 : DER encoding -/

theorem beBytes_zero_eq : ∀ l, beBytes l 0 = List.replicate l 0 := by
  intro l
  induction l with
  | zero => rfl
  | succ n ih => simp [beBytes, ih, List.replicate_succ']

/-- A nonzero value's minimal big-endian rendering is non-empty and its
leading byte is nonzero. -/
theorem minBE_head : ∀ v : ℕ, v ≠ 0 → ∃ h t, minBE v = h :: t ∧ h ≠ 0 := by
  intro v
  induction v using Nat.strong_induction_on with
  | _ v ih =>
    intro hv
    match v, hv with
    | w + 1, _ =>
      by_cases hd : (w + 1) / 256 = 0
      · refine ⟨(w + 1) % 256, [], by simp [minBE, hd], ?_⟩
        have hlt : w + 1 < 256 := by omega
        rw [Nat.mod_eq_of_lt hlt]
        omega
      · obtain ⟨h, t, hm, hh⟩ :=
          ih ((w + 1) / 256) (Nat.div_lt_self (Nat.succ_pos w) (by norm_num)) hd
        exact ⟨h, t ++ [(w + 1) % 256], by simp [minBE, hm], hh⟩

theorem dropWhile_zero_replicate (m : List ℕ) :
    ∀ k, (List.replicate k 0 ++ m).dropWhile (· == 0) = m.dropWhile (· == 0) := by
  intro k
  induction k with
  | zero => rfl
  | succ n ih => simp [List.replicate_succ, List.dropWhile_cons, ih]

/-- A fixed-width big-endian rendering is the minimal one padded with
leading zero bytes. -/
theorem beBytes_structure : ∀ (l v : ℕ), v < 256 ^ l →
    beBytes l v = List.replicate (l - (minBE v).length) 0 ++ minBE v := by
  intro l
  induction l with
  | zero =>
    intro v hv
    interval_cases v
    simp [beBytes, minBE]
  | succ n ih =>
    intro v hv
    by_cases h0 : v = 0
    · subst h0
      simp [beBytes_zero_eq, minBE]
    · have hdivlt : v / 256 < 256 ^ n := by
        rw [Nat.div_lt_iff_lt_mul (by norm_num)]
        calc v < 256 ^ (n + 1) := hv
        _ = 256 ^ n * 256 := by ring
      have hbe : beBytes (n + 1) v = beBytes n (v / 256) ++ [v % 256] := rfl
      have hmv : minBE v = minBE (v / 256) ++ [v % 256] := by
        obtain ⟨w, rfl⟩ : ∃ w, v = w + 1 := ⟨v - 1, by omega⟩
        simp [minBE]
      rw [hbe, ih (v / 256) hdivlt, hmv, List.append_assoc]
      congr 2
      simp [List.length_append]

/-- The source's strip step — render into 32 bytes, `lstrip` zero bytes —
is exactly the spec's minimal big-endian rendering. -/
theorem strip_beBytes (l v : ℕ) (h0 : v ≠ 0) (hv : v < 256 ^ l) :
    (beBytes l v).dropWhile (· == 0) = minBE v := by
  rw [beBytes_structure l v hv, dropWhile_zero_replicate]
  obtain ⟨h, t, hm, hh⟩ := minBE_head v h0
  rw [hm]
  simp [List.dropWhile_cons, hh]

theorem derInt_eq (v : ℕ) (h0 : v ≠ 0) (hv : v < 2 ^ 256) :
    derInt v = some (specDERInt v) := by
  have h256 : v < 256 ^ 32 := by norm_num at hv ⊢; omega
  rw [derInt, if_pos hv, strip_beBytes 32 v h0 h256]
  obtain ⟨h, t, hm, hh⟩ := minBE_head v h0
  simp [specDERInt, hm]

/-- C9 (amended): for every `r` and `s` that are *nonzero* unsigned
256-bit integers, `Signature.der` produces exactly the DER form the spec
defines — minimal big-endian rendering, a `0x00` pad when the high bit of
the leading byte is set, each wrapped as `0x02, length, bytes`,
concatenated and wrapped as `0x30, totalLength, payload` (`specDER`).
The restriction to nonzero values is forced by `der_crashes_on_zero`. -/
theorem der_matches_spec (r s : ℕ) (hr0 : 0 < r) (hr : r < 2 ^ 256)
    (hs0 : 0 < s) (hs : s < 2 ^ 256) :
    Signature.der ⟨r, s⟩ = some (specDER r s) := by
  have h1 := derInt_eq r (by omega) hr
  have h2 := derInt_eq s (by omega) hs
  simp only [Signature.der, h1, h2, Option.bind_eq_bind', Option.some_bind, specDER]

/-- C9 (counterexample to the claim as stated): the claim covers *every*
unsigned 256-bit `r` and `s`, but at `r = 0` the stripped rendering is
empty and `rbin[0]` raises `IndexError` — the source produces no DER form
at all (while the spec's own words would give the empty integer body). -/
theorem der_crashes_on_zero : Signature.der ⟨0, 1⟩ = none := by decide

/-- Witness for C9 at `r = 1` (no pad byte) and `s = 2^255` (high bit set,
pad byte prepended). -/
theorem der_matches_spec_witness :
    Signature.der ⟨1, 2 ^ 255⟩ = some (specDER 1 (2 ^ 255)) :=
  der_matches_spec 1 (2 ^ 255) (by norm_num) (by norm_num) (by norm_num) (by norm_num)

end Btc
